import Mathlib

/-!
Verification of the core logic of the Code-to-TXT utility: inclusion rules,
recursive scan bookkeeping, tree construction from flat path lists, selection
tracking, and selective serialization (table of contents plus concatenated
file contents).  JavaScript strings are modelled as Lean `String`, with the
string operations used by the source (endsWith, includes, split, join,
concatenation) implemented by structural recursion on the underlying
character lists.  JavaScript objects used as string-keyed maps are modelled
as insertion-ordered association lists.
-/

namespace CodeToTxt

/-! ## String helpers mirroring the JavaScript string operations -/

/-- Boolean test that the first list is a prefix of the second. -/
def listPre [DecidableEq α] : List α → List α → Bool
  | [], _ => true
  | _ :: _, [] => false
  | a :: l, b :: r => if a = b then listPre l r else false

/-- Boolean test that `sub` occurs as a contiguous sublist, mirroring the
JavaScript `String.prototype.includes`. -/
def hasSub (sub : List Char) : List Char → Bool
  | [] => listPre sub []
  | c :: rest => listPre sub (c :: rest) || hasSub sub rest

/-- Model of the JavaScript `path.endsWith(suffix)`. -/
def strEndsWith (s suf : String) : Bool := listPre suf.data.reverse s.data.reverse

/-- Model of the JavaScript `path.includes(sub)`. -/
def strIncludes (s sub : String) : Bool := hasSub sub.data s.data

/-- Model of the JavaScript `s.startsWith(p)` (used only in statements). -/
def strStartsWith (s p : String) : Bool := listPre p.data s.data

/-- Model of the JavaScript `String.prototype.split` with a one-character
separator: splitting never yields the empty list, and the empty string
splits to `[[]]`. -/
def splitChar (sep : Char) : List Char → List (List Char)
  | [] => [[]]
  | c :: rest =>
    let r := splitChar sep rest
    if c = sep then [] :: r
    else
      match r with
      | h :: t => (c :: h) :: t
      | [] => [[c]]

/-- Inverse of `splitChar`: join character lists with a separator. -/
def joinChar (sep : Char) : List (List Char) → List Char
  | [] => []
  | [x] => x
  | x :: y :: rest => x ++ sep :: joinChar sep (y :: rest)

/-- Model of the JavaScript `path.split("/")`. -/
def splitSlash (s : String) : List String := (splitChar '/' s.data).map (fun l => ⟨l⟩)

/-- Model of the JavaScript `content.split("\n")`. -/
def splitNl (s : String) : List String := (splitChar '\n' s.data).map (fun l => ⟨l⟩)

/-- Model of the JavaScript `Array.prototype.join(sep)` on strings. -/
def joinStr (sep : String) : List String → String
  | [] => ""
  | [x] => x
  | x :: y :: rest => x ++ sep ++ joinStr sep (y :: rest)

/-- Join path segments with "/", the inverse of `splitSlash`. -/
def joinSegs (parts : List String) : String := joinStr "/" parts

/-! ## Inclusion rules

The repository ships two versions of the inclusion predicate.  `src/rules.ts`
excludes `package-lock.json` and then checks an extension allow-list; it has
no directory check.  `src/rules.js` rejects any path that contains
an ignored directory name followed by "/" as a substring, then checks the
same extension allow-list. -/

namespace RulesTs

/-- The auto-select extension allow-list of src/rules.ts. -/
def AUTO_SELECT_EXTS : List String :=
  [".js", ".jsx", ".ts", ".tsx", ".py", ".json", ".html", ".css"]

/-- Embedding of `shouldIncludeFile` from src/rules.ts.  The dynamic
`typeof path !== "string"` guard is outside the model since the Lean input
is typed; the claims quantify over string inputs only. -/
def shouldIncludeFile (path : String) : Bool :=
  if strEndsWith path "package-lock.json" then false
  else AUTO_SELECT_EXTS.any (fun ext => strEndsWith path ext)

end RulesTs

namespace RulesJs

/-- The ignored directory names of src/rules.js. -/
def IGNORED_DIRS : List String :=
  ["node_modules", ".git", "__pycache__", ".venv", "venv", "dist", "build", ".next"]

/-- The allowed extension list of src/rules.js. -/
def ALLOWED_EXTENSIONS : List String :=
  [".js", ".jsx", ".ts", ".tsx", ".py", ".json", ".html", ".css"]

/-- Embedding of `shouldIncludeFile` from src/rules.js: reject when the path
contains `dir ++ "/"` as a substring for some ignored directory, otherwise
accept exactly the allow-listed extensions. -/
def shouldIncludeFile (path : String) : Bool :=
  if IGNORED_DIRS.any (fun dir => strIncludes path (dir ++ "/")) then false
  else ALLOWED_EXTENSIONS.any (fun ext => strEndsWith path ext)

end RulesJs

/-! ## Data model: scan records and tree nodes (src/tool/main.tsx) -/

/-- A scanned file record: `interface FileInfo { path; lineCount }`. -/
structure FileInfo where
  path : String
  lineCount : Nat
deriving DecidableEq

/-- The discriminated union `TreeNode` of src/tool/main.tsx: a directory
node carries children, a file node carries its line count. -/
inductive TreeNode where
  | file (name : String) (path : String) (lineCount : Nat)
  | dir (name : String) (path : String) (children : List TreeNode)

def TreeNode.nameOf : TreeNode → String
  | .file n _ _ => n
  | .dir n _ _ => n

def TreeNode.pathOf : TreeNode → String
  | .file _ p _ => p
  | .dir _ p _ => p

def TreeNode.isDir : TreeNode → Bool
  | .file _ _ _ => false
  | .dir _ _ _ => true

/-! ## The intermediate nested record built by buildTree

The JavaScript builds a nested plain object
`{ [name]: { __isDir, __lineCount, __children } }` keyed by path segment.
String-keyed plain objects preserve insertion order for these keys, so the
object is modelled as an insertion-ordered association structure.  (Keys
that look like array indices would be enumerated first by JavaScript; no
settled property depends on the pre-sort enumeration order: the leaf
properties are permutation-invariant and the stated orderings concern the
comparator sort.) -/

mutual
inductive Entry where
  | mk (isDirE : Bool) (lc : Nat) (children : EntryMap)
inductive EntryMap where
  | nil
  | cons (key : String) (e : Entry) (rest : EntryMap)
end

/-- One pass of the buildTree record loop for a single record whose path
splits into the given segments: walk or create intermediate entries, and mark
the terminal segment as a file with the record line count (keeping whatever
children that entry already had -- the source does not clear them). -/
def insertParts (lc : Nat) : List String → EntryMap → EntryMap
  | [], m => m
  | [p], .nil => .cons p (.mk false lc .nil) .nil
  | [p], .cons k e rest =>
    if k = p then
      match e with
      | .mk _ _ ch => .cons k (.mk false lc ch) rest
    else .cons k e (insertParts lc [p] rest)
  | p :: q :: ps, .nil => .cons p (.mk true 0 (insertParts lc (q :: ps) .nil)) .nil
  | p :: q :: ps, .cons k e rest =>
    if k = p then
      match e with
      | .mk d l ch => .cons k (.mk d l (insertParts lc (q :: ps) ch)) rest
    else .cons k e (insertParts lc (p :: q :: ps) rest)
termination_by parts m => (parts.length, sizeOf m)

/-- The nested record accumulated over all file records, in input order. -/
def buildMap (records : List FileInfo) : EntryMap :=
  records.foldl (fun m f => insertParts f.lineCount (splitSlash f.path) m) .nil

/-! ## The child comparator and the sort

`localeCompare` of the source is modelled as code-point lexicographic
comparison; for the names appearing in the claims this agrees with the
default-locale collation on the distinctions that matter (which name sorts
first), and no claim depends on locale-specific tie-breaking. -/

/-- Lexicographic comparison of character lists by code point. -/
def lexCmpC : List Char → List Char → Ordering
  | [], [] => .eq
  | [], _ :: _ => .lt
  | _ :: _, [] => .gt
  | a :: l, b :: r =>
    if a.toNat < b.toNat then .lt
    else if b.toNat < a.toNat then .gt
    else lexCmpC l r

/-- Model of `a.name.localeCompare(b.name)` as a sign value. -/
def localeCmp (a b : String) : Int :=
  match lexCmpC a.data b.data with
  | .lt => -1
  | .eq => 0
  | .gt => 1

/-- The comparator passed to `out.sort` in `toTreeNodes`: directories before
files, files by descending line count, directories by name. -/
def nodeCmp (a b : TreeNode) : Int :=
  match a, b with
  | .dir _ _ _, .file _ _ _ => -1
  | .file _ _ _, .dir _ _ _ => 1
  | .file _ _ la, .file _ _ lb => (lb : Int) - (la : Int)
  | .dir na _ _, .dir nb _ _ => localeCmp na nb

/-- Stable insertion into a sorted list: the new element goes after every
element it does not strictly precede, which is the order a stable comparator
sort (ECMAScript `Array.prototype.sort`) produces. -/
def insertCmp (cmp : α → α → Int) (x : α) : List α → List α
  | [] => [x]
  | y :: ys => if cmp x y < 0 then x :: y :: ys else y :: insertCmp cmp x ys

/-- Stable sort by a JavaScript-style comparator: elements are inserted in
input order, each after the elements it compares equal to. -/
def sortCmp (cmp : α → α → Int) (l : List α) : List α :=
  l.foldl (fun acc x => insertCmp cmp x acc) []

/-! ## toTreeNodes and buildTree -/

mutual
/-- Embedding of `toTreeNodes` of src/tool/main.tsx: convert the nested
record in key insertion order, then sort each children list. -/
def toTreeNodes : EntryMap → String → List TreeNode
  | m, pre => sortCmp nodeCmp (rawNodes m pre)
  termination_by m _ => (sizeOf m, 1)
/-- The unsorted node list of one object level, in key insertion order. -/
def rawNodes : EntryMap → String → List TreeNode
  | .nil, _ => []
  | .cons k e rest, pre =>
    let pth := if pre = "." then k else pre ++ "/" ++ k
    (match e with
     | .mk d lcv ch =>
       if d then TreeNode.dir k pth (toTreeNodes ch pth)
       else TreeNode.file k pth lcv) :: rawNodes rest pre
  termination_by m _ => (sizeOf m, 0)
end

def TreeNode.childrenOrNil : TreeNode → List TreeNode
  | .file _ _ _ => []
  | .dir _ _ cs => cs

/-- Embedding of `buildTree`: accumulate the nested record over all file
records, wrap it under a synthetic "." directory, convert, and return the
children of the wrapper. -/
def buildTree (records : List FileInfo) : List TreeNode :=
  match toTreeNodes (.cons "." (.mk true 0 (buildMap records)) .nil) "." with
  | t :: _ => t.childrenOrNil
  | [] => []

/-! ## Selection map

`selectedMap` is a plain object from file path to boolean.  Lookup of an
absent key yields `undefined`, which every use site treats as false. -/

abbrev SelMap := List (String × Bool)

/-- First-match association lookup, `none` for an absent key. -/
def lookupSel : SelMap → String → Option Bool
  | [], _ => none
  | (k, v) :: rest, key => if k = key then some v else lookupSel rest key

/-- The truthiness coercion applied at every `selectedMap[path]` use site:
an absent key reads as false. -/
def getSel (m : SelMap) (key : String) : Bool := (lookupSel m key).getD false

/-- Assignment `map[key] = v` on a plain object: overwrite in place when the
key exists, otherwise append the key in insertion order. -/
def setSel : SelMap → String → Bool → SelMap
  | [], key, v => [(key, v)]
  | (k, b) :: rest, key, v =>
    if k = key then (k, v) :: rest else (k, b) :: setSel rest key v

/-! ## Aggregate queries over the tree (count utils of src/tool/main.tsx) -/

mutual
/-- Embedding of `countFiles`: a file counts one, a directory sums its
children. -/
def countFiles : TreeNode → Nat
  | .file _ _ _ => 1
  | .dir _ _ cs => countFilesL cs
def countFilesL : List TreeNode → Nat
  | [] => 0
  | c :: rest => countFiles c + countFilesL rest
end

mutual
/-- Embedding of `countSelected`. -/
def countSelected : TreeNode → SelMap → Nat
  | .file _ p _, m => if getSel m p then 1 else 0
  | .dir _ _ cs, m => countSelectedL cs m
def countSelectedL : List TreeNode → SelMap → Nat
  | [], _ => 0
  | c :: rest, m => countSelected c m + countSelectedL rest m
end

mutual
/-- Embedding of `folderHasAnySelected`: false on files, otherwise true iff
some child is a selected file or a folder with a selected descendant. -/
def folderHasAnySelected (m : SelMap) : TreeNode → Bool
  | .file _ _ _ => false
  | .dir _ _ cs => anySelectedL m cs
def anySelectedL (m : SelMap) : List TreeNode → Bool
  | [] => false
  | c :: rest =>
    (match c with
     | .file _ p _ => getSel m p
     | .dir n p cs => folderHasAnySelected m (.dir n p cs)) || anySelectedL m rest
end

/-- The emission test used both by the table-of-contents traversal and by
its visible-sibling filter: a file is visible when selected, a directory
when it has a selected descendant. -/
def visibleB (m : SelMap) : TreeNode → Bool
  | .file _ p _ => getSel m p
  | .dir n p cs => folderHasAnySelected m (.dir n p cs)

/-! ## Derived folder checkbox state (NodeItem of src/tool/main.tsx) -/

/-- Embedding of `isAllSelected` in NodeItem: the selected count equals the
file count, with no emptiness guard. -/
def isAllSelected (m : SelMap) (n : TreeNode) : Bool :=
  countSelected n m == countFiles n

/-- Embedding of `isNoneSelected` in NodeItem. -/
def isNoneSelected (m : SelMap) (n : TreeNode) : Bool :=
  countSelected n m == 0

/-- The three-valued state the checkbox renders: checked exactly when
`isAllSelected`, indeterminate exactly when neither all nor none. -/
inductive FolderState where
  | all
  | none
  | mixed
deriving DecidableEq

/-- The folder state as displayed: `checked = isAllSelected` takes
precedence, then the none state, otherwise indeterminate (called "partial"
by the specification). -/
def folderState (m : SelMap) (n : TreeNode) : FolderState :=
  if isAllSelected m n then .all
  else if isNoneSelected m n then .none
  else .mixed

/-! ## Folder toggling (handleToggleFolder of src/tool/main.tsx) -/

/-- Embedding of `findNode`: first node whose path matches, searching each
node before its following siblings and a directory body before the rest. -/
def findNode : List TreeNode → String → Option TreeNode
  | [], _ => none
  | n :: rest, sp =>
    if n.pathOf = sp then some n
    else
      match n with
      | .dir _ _ cs =>
        (match findNode cs sp with
         | some f => some f
         | none => findNode rest sp)
      | .file _ _ _ => findNode rest sp

mutual
/-- Embedding of `setAllFilesRec`: overwrite the entry of every descendant
file path with the new value. -/
def setAllFilesRec (val : Bool) : TreeNode → SelMap → SelMap
  | .file _ p _, m => setSel m p val
  | .dir _ _ cs, m => setAllFilesL val cs m
def setAllFilesL (val : Bool) : List TreeNode → SelMap → SelMap
  | [], m => m
  | c :: rest, m => setAllFilesL val rest (setAllFilesRec val c m)
end

/-- Embedding of `handleToggleFolder`: locate the folder by path; when it is
a directory, set every descendant file entry to the new value; otherwise
leave the map unchanged. -/
def handleToggleFolder (rootTree : List TreeNode) (m : SelMap)
    (folderPath : String) (newVal : Bool) : SelMap :=
  match findNode rootTree folderPath with
  | Option.none => m
  | Option.some n =>
    match n with
    | .file _ _ _ => m
    | .dir _ _ cs => setAllFilesL newVal cs m

mutual
/-- The paths of all file nodes in a subtree, in traversal order. -/
def filePaths : TreeNode → List String
  | .file _ p _ => [p]
  | .dir _ _ cs => filePathsL cs
def filePathsL : List TreeNode → List String
  | [] => []
  | c :: rest => filePaths c ++ filePathsL rest
end

/-- The file paths the folder toggle may touch: the descendant file paths of
the directory found at the toggled path, empty when nothing is found or the
found node is a file. -/
def descendantFilePaths (tree : List TreeNode) (fp : String) : List String :=
  match findNode tree fp with
  | Option.some (.dir _ _ cs) => filePathsL cs
  | _ => []

/-! ## Scanner per-file processing (processOneFile of src/tool/main.tsx) -/

/-- The hard skip list of binary extensions. -/
def SKIP_FILE_EXTS : List String :=
  [".png", ".jpg", ".jpeg", ".gif", ".webp", ".pdf", ".mp4", ".mp3", ".zip"]

def MAX_BASE64_BYTES : Nat := 2000000

/-- Embedding of `shouldSkipFile`. -/
def shouldSkipFile (filePath : String) : Bool :=
  SKIP_FILE_EXTS.any (fun ext => strEndsWith filePath ext)

/-- Result of a FileStore read: either content or a reported error.  The
source treats a result as an error exactly when it carries a truthy `error`
field, which the host reports as a nonempty message. -/
inductive ReadResult where
  | ok (content : String)
  | err (msg : String)

/-- Embedding of `processOneFile`, with the two awaited reads supplied as
arguments: skip by extension, skip oversized base64 content, skip failed
reads (each with a log line), otherwise record the path with
`content.split("\n").length` as line count. -/
def processOneFile (filePath : String) (b64Res utf8Res : ReadResult)
    (collector : List FileInfo) : List FileInfo × List String :=
  if shouldSkipFile filePath then
    (collector, ["Skipping file (extension): \x22" ++ filePath ++ "\x22"])
  else
    match b64Res with
    | .err e => (collector, ["Failed base64 read \x22" ++ filePath ++ "\x22: " ++ e])
    | .ok b64Content =>
      if b64Content.length > MAX_BASE64_BYTES then
        (collector, ["Skipping large file: \x22" ++ filePath ++ "\x22 (base64 size: "
          ++ toString b64Content.length ++ ")"])
      else
        match utf8Res with
        | .err e => (collector, ["Failed utf8 read \x22" ++ filePath ++ "\x22: " ++ e])
        | .ok content =>
          (collector ++ [⟨filePath, (splitNl content).length⟩], [])

/-! ## Export: table-of-contents emission (buildSelectedTreeText) -/

/-- The text after the branch glyph on an emitted line: the node name, and
for files the line-count suffix. -/
def labelOf : TreeNode → String
  | .file n _ lcv => n ++ " (" ++ toString lcv ++ " lines)"
  | .dir n _ _ => n

mutual
/-- Embedding of `buildSelectedTreeText`: skip invisible nodes entirely;
emit the node line with the terminal glyph exactly when the passed `isLast`
flag is set; for a directory, recurse over all literal children, passing
each child `idx === subCount - 1` where `subCount` counts only the visible
children while `idx` is the literal child index. -/
def buildSelectedTreeText (m : SelMap) : TreeNode → String → Bool → List String
  | .file n p lcv, pref, isLast =>
    if getSel m p then
      [pref ++ (if isLast then "└─ " else "├─ ") ++ labelOf (.file n p lcv)]
    else []
  | .dir n p cs, pref, isLast =>
    if folderHasAnySelected m (.dir n p cs) then
      let subCount := (cs.filter (fun c => visibleB m c)).length
      (pref ++ (if isLast then "└─ " else "├─ ") ++ n)
        :: emitKids m cs (pref ++ (if isLast then "   " else "|  ")) subCount 0
    else []
  termination_by t _ _ => (sizeOf t, 0)
/-- The `node.children.forEach((child, idx) => ...)` loop of the source,
carrying the literal index. -/
def emitKids (m : SelMap) : List TreeNode → String → Nat → Nat → List String
  | [], _, _, _ => []
  | c :: rest, cpre, subCount, idx =>
    buildSelectedTreeText m c cpre ((idx : Int) == (subCount : Int) - 1)
      ++ emitKids m rest cpre subCount (idx + 1)
  termination_by cs _ _ _ => (sizeOf cs, 1)
end

/-- The root loop of `handleGenerate`: each top-level node is passed
`i === rootTree.length - 1`, the literal last index. -/
def emitRoots (m : SelMap) : List TreeNode → Nat → Nat → List String
  | [], _, _ => []
  | t :: rest, i, len =>
    buildSelectedTreeText m t "" ((i : Int) == (len : Int) - 1)
      ++ emitRoots m rest (i + 1) len

/-- The complete `tocLines` list produced by `handleGenerate`. -/
def buildToc (m : SelMap) (rootTree : List TreeNode) : List String :=
  emitRoots m rootTree 0 rootTree.length

/-- Specification-side emission of a visible-children list: every child but
the last is passed a false last-flag, the last a true one.  Used to state
which glyphs the source gives the visible children. -/
def emitVisible (m : SelMap) (cpre : String) : List TreeNode → List String
  | [] => []
  | [c] => buildSelectedTreeText m c cpre true
  | c :: d :: rest => buildSelectedTreeText m c cpre false ++ emitVisible m cpre (d :: rest)

/-! ## Export: body gathering (gatherSelectedContent) and final text -/

/-- The fixed separator line of a content block. -/
def sepLine : String := "----------------------------------------"

/-- The content block appended for one successfully read selected file. -/
def blockFor (p c : String) : String :=
  "FILE: " ++ p ++ "\n" ++ sepLine ++ "\n" ++ c ++ "\n\n"

/-- The message passed to `showError` for a failed export read. -/
def readErrMsg (p e : String) : String :=
  "Could not read \x22" ++ p ++ "\x22: " ++ e

mutual
/-- Embedding of `gatherSelectedContent`, with the FileStore reads supplied
as a function: returns the appended content and the `showError` messages in
emission order. -/
def gatherSelectedContent (reads : String → ReadResult) (m : SelMap) :
    TreeNode → String × List String
  | .dir _ _ cs => gatherL reads m cs
  | .file _ p _ =>
    if getSel m p then
      match reads p with
      | .err e => ("", [readErrMsg p e])
      | .ok c => (blockFor p c, [])
    else ("", [])
def gatherL (reads : String → ReadResult) (m : SelMap) :
    List TreeNode → String × List String
  | [] => ("", [])
  | c :: rest =>
    let r1 := gatherSelectedContent reads m c
    let r2 := gatherL reads m rest
    (r1.1 ++ r2.1, r1.2 ++ r2.2)
end

/-- Embedding of the pure text assembly of `handleGenerate` (steps 1 to 3),
with the timestamp string supplied as an argument: returns the output file
name, the final text handed to `writeFile`, and the `showError` messages
raised while gathering. -/
def handleGenerateText (reads : String → ReadResult) (m : SelMap)
    (rootTree : List TreeNode) (now : String) : String × String × List String :=
  let outFileName := "code-to-text-" ++ now ++ ".txt"
  let tocLines := buildToc m rootTree
  let g := gatherL reads m rootTree
  let finalText :=
    "### FILE TREE (SELECTED)\n\n"
      ++ (if tocLines = [] then "(No files selected)\n" else joinStr "\n" tocLines ++ "\n")
      ++ "\n\n### FILE CONTENTS\n\n"
      ++ (if g.1 = "" then "(No file contents)\n" else g.1)
  (outFileName, finalText, g.2)

mutual
/-- The selected file paths of a subtree in traversal order: this is the
order in which the body traversal visits selected files. -/
def selPaths (m : SelMap) : TreeNode → List String
  | .file _ p _ => if getSel m p then [p] else []
  | .dir _ _ cs => selPathsL m cs
def selPathsL (m : SelMap) : List TreeNode → List String
  | [] => []
  | c :: rest => selPaths m c ++ selPathsL m rest
end

/-- The body contribution of one selected path: its block on a successful
read, nothing on a failed one. -/
def blockOrEmpty (reads : String → ReadResult) (p : String) : String :=
  match reads p with
  | .ok c => blockFor p c
  | .err _ => ""

/-- The surfaced error of one selected path, if any. -/
def errOf (reads : String → ReadResult) (p : String) : Option String :=
  match reads p with
  | .err e => some (readErrMsg p e)
  | .ok _ => none

/-- Concatenation of a list of strings, used to restate the gathered body. -/
def catStrs : List String → String
  | [] => ""
  | s :: rest => s ++ catStrs rest

/-! ## Specification-side observers for the tree builder -/

/-- The path segments of a record. -/
def segsOf (f : FileInfo) : List String := splitSlash f.path

mutual
/-- The leaf (file node) records of a subtree with their stored paths, in
traversal order. -/
def leafList : TreeNode → List (String × Nat)
  | .file _ p lcv => [(p, lcv)]
  | .dir _ _ cs => leafListL cs
def leafListL : List TreeNode → List (String × Nat)
  | [] => []
  | c :: rest => leafList c ++ leafListL rest
end

mutual
/-- Every stored path in a subtree equals its ancestor directory names
joined with "/" followed by its own name, for the given ancestor chain. -/
def pathsOk : List String → TreeNode → Prop
  | chain, .file n p _ => p = joinSegs (chain ++ [n])
  | chain, .dir n p cs => p = joinSegs (chain ++ [n]) ∧ pathsOkL (chain ++ [n]) cs
def pathsOkL : List String → List TreeNode → Prop
  | _, [] => True
  | chain, c :: rest => pathsOk chain c ∧ pathsOkL chain rest
end

mutual
/-- The terminal (file) entries reachable in the nested record, as segment
chains with their line counts, in key insertion order.  A file entry hides
whatever children it still carries, exactly as `toTreeNodes` does. -/
def entryLeaves : String → Entry → List (List String × Nat)
  | k, .mk false lcv _ => [([k], lcv)]
  | k, .mk true _ ch => (mapLeaves ch).map (fun q => (k :: q.1, q.2))
def mapLeaves : EntryMap → List (List String × Nat)
  | .nil => []
  | .cons k e rest => entryLeaves k e ++ mapLeaves rest
end

/-- The top-level keys of the nested record. -/
def keysOf : EntryMap → List String
  | .nil => []
  | .cons k _ rest => k :: keysOf rest

/-- Lookup of a top-level entry by key. -/
def lookupE : EntryMap → String → Option Entry
  | .nil, _ => none
  | .cons k e rest, key => if k = key then some e else lookupE rest key

/-- The record walk for the given segments meets no file entry on the way
and no entry at all at the terminal segment, so inserting them adds one new
leaf and disturbs nothing. -/
def freshFor : EntryMap → List String → Prop
  | _, [] => True
  | m, [p] => lookupE m p = none
  | m, p :: q :: ps =>
    match lookupE m p with
    | none => True
    | some (.mk d _ ch) => d = true ∧ freshFor ch (q :: ps)
termination_by _ parts => parts.length

/-- The relation connecting the traversal pre-string of `toTreeNodes` with
the ancestor name chain: at the top the pre-string is "." with an empty
chain and no top-level key equal to "."; deeper it is the joined nonempty
chain and differs from ".". -/
def PreInv (pre : String) (chain : List String) (m : EntryMap) : Prop :=
  (pre = "." ∧ chain = [] ∧ ∀ k ∈ keysOf m, k ≠ ".")
    ∨ (chain ≠ [] ∧ pre = joinSegs chain ∧ pre ≠ ".")

mutual
/-- Every children list in a subtree is ordered by the child comparator. -/
def childrenSorted : TreeNode → Prop
  | .file _ _ _ => True
  | .dir _ _ cs => cs.Pairwise (fun a b => nodeCmp a b ≤ 0) ∧ childrenSortedL cs
def childrenSortedL : List TreeNode → Prop
  | [] => True
  | c :: rest => childrenSorted c ∧ childrenSortedL rest
end

/-- Boolean pairwise check, used to state the ordering the specification
claims. -/
def pairwiseB (p : α → α → Bool) : List α → Bool
  | [] => true
  | x :: rest => rest.all (p x) && pairwiseB p rest

/-- The child order stated by the specification, including its name
tie-break for files with equal metric: directories before files,
directories by ascending name, files by descending line count and then by
ascending name. -/
def specPair (a b : TreeNode) : Bool :=
  match a, b with
  | .dir _ _ _, .file _ _ _ => true
  | .file _ _ _, .dir _ _ _ => false
  | .dir na _ _, .dir nb _ _ => !(lexCmpC na.data nb.data == Ordering.gt)
  | .file na _ la, .file nb _ lb =>
    lb < la || (la == lb && !(lexCmpC na.data nb.data == Ordering.gt))

/-! # Lemmas -/

theorem listPre_append_self [DecidableEq α] (a b : List α) : listPre a (a ++ b) = true := by
  induction a with
  | nil => rfl
  | cons x l ih => simp [listPre, ih]

theorem hasSub_of_middle (sub a b : List Char) : hasSub sub (a ++ sub ++ b) = true := by
  induction a with
  | nil =>
    cases sub with
    | nil => cases b with
      | nil => rfl
      | cons c r => simp [hasSub, listPre]
    | cons c r =>
      simp only [List.nil_append, List.cons_append, hasSub, Bool.or_eq_true]
      exact Or.inl (by simpa using listPre_append_self (c :: r) b)
  | cons x l ih =>
    simp only [List.cons_append, hasSub, Bool.or_eq_true]
    exact Or.inr (by simpa [List.append_assoc] using ih)

theorem strEndsWith_append (pre suf : String) : strEndsWith (pre ++ suf) suf = true := by
  show listPre suf.data.reverse (pre.data ++ suf.data).reverse = true
  rw [List.reverse_append]
  exact listPre_append_self _ _

theorem strData_append (a b : String) : (a ++ b).data = a.data ++ b.data := by
  cases a
  cases b
  rfl

theorem splitChar_ne_nil (sep : Char) (l : List Char) : splitChar sep l ≠ [] := by
  cases l with
  | nil => simp [splitChar]
  | cons c rest =>
    simp only [splitChar]
    by_cases h : c = sep
    · simp [h]
    · simp only [if_neg h]
      cases splitChar sep rest <;> simp

theorem splitChar_length (sep : Char) (l : List Char) :
    (splitChar sep l).length = l.count sep + 1 := by
  induction l with
  | nil => simp [splitChar]
  | cons c rest ih =>
    simp only [splitChar]
    by_cases h : c = sep
    · subst h
      simp [List.count_cons, ih]
    · simp only [if_neg h]
      rcases hr : splitChar sep rest with _ | ⟨x, t⟩
      · exact absurd hr (splitChar_ne_nil sep rest)
      · have : (x :: t).length = rest.count sep + 1 := by rw [← hr]; exact ih
        simp only [List.length_cons] at this ⊢
        simp [List.count_cons, Ne.symm h, this]

theorem joinChar_splitChar (sep : Char) (l : List Char) :
    joinChar sep (splitChar sep l) = l := by
  induction l with
  | nil => rfl
  | cons c rest ih =>
    simp only [splitChar]
    by_cases h : c = sep
    · subst h
      rcases hr : splitChar c rest with _ | ⟨x, t⟩
      · exact absurd hr (splitChar_ne_nil c rest)
      · rw [if_pos rfl]
        have hu : joinChar c ([] :: x :: t) = c :: joinChar c (x :: t) := rfl
        rw [hu, ← hr, ih]
    · simp only [if_neg h]
      rcases hr : splitChar sep rest with _ | ⟨x, t⟩
      · exact absurd hr (splitChar_ne_nil sep rest)
      · rw [hr] at ih
        cases t with
        | nil =>
          simp only [joinChar] at ih ⊢
          simp [ih]
        | cons y s =>
          simp only [joinChar] at ih ⊢
          simp [← ih]

theorem strEq_of_data {a b : String} (h : a.data = b.data) : a = b := by
  cases a
  cases b
  exact congrArg String.mk h

theorem joinStr_map_mk (ls : List (List Char)) :
    joinStr "/" (ls.map (fun l => (⟨l⟩ : String))) = ⟨joinChar '/' ls⟩ := by
  induction ls with
  | nil => rfl
  | cons x rest ih =>
    cases rest with
    | nil => rfl
    | cons y s =>
      simp only [List.map_cons, joinStr, joinChar] at ih ⊢
      rw [ih]
      apply strEq_of_data
      simp [strData_append]

theorem joinSegs_splitSlash (s : String) : joinSegs (splitSlash s) = s := by
  unfold joinSegs splitSlash
  rw [joinStr_map_mk, joinChar_splitChar]

theorem splitSlash_ne_nil (s : String) : splitSlash s ≠ [] := by
  unfold splitSlash
  intro h
  exact splitChar_ne_nil '/' s.data (List.map_eq_nil_iff.mp h)

/-! # Claim theorems -/

/-- C9: the rules.ts inclusion predicate rejects every path ending in
"package-lock.json" even though ".json" is in the auto-select allow-list;
the package-lock exclusion runs before the extension check. -/
theorem c9_package_lock_excluded :
    ".json" ∈ RulesTs.AUTO_SELECT_EXTS ∧
      ∀ p : String, strEndsWith p "package-lock.json" = true →
        RulesTs.shouldIncludeFile p = false := by
  refine ⟨by decide, ?_⟩
  intro p h
  simp [RulesTs.shouldIncludeFile, h]

/-- Witness for C9 at the concrete path "x/package-lock.json". -/
theorem c9_package_lock_excluded_witness :
    RulesTs.shouldIncludeFile "x/package-lock.json" = false :=
  c9_package_lock_excluded.2 "x/package-lock.json" (by decide)

/-- C3 counterexample: "node_modules/a.ts" has the segment "node_modules",
which is a configured ignored directory name, yet the rules.ts
`shouldIncludeFile` returns true for it (that variant has no directory
check at all), refuting the claim that every such path is rejected. -/
theorem c3_segment_reject_counterexample :
    RulesTs.shouldIncludeFile "node_modules/a.ts" = true ∧
      "node_modules" ∈ RulesJs.IGNORED_DIRS ∧
      "node_modules" ∈ splitSlash "node_modules/a.ts" := by
  refine ⟨by decide, by decide, by decide⟩

/-- C3 (amended): only the rules.js variant has a directory check, and it
rejects by substring: any path containing an ignored directory name
followed by "/" is rejected before the extension list is consulted,
whatever its extension.  This covers every path with a non-final segment
exactly matching an ignored directory name. -/
theorem c3_dir_reject_js (a dir b : String) (h : dir ∈ RulesJs.IGNORED_DIRS) :
    RulesJs.shouldIncludeFile (a ++ dir ++ "/" ++ b) = false := by
  have hsub : strIncludes (a ++ dir ++ "/" ++ b) (dir ++ "/") = true := by
    show hasSub (dir ++ "/").data (a ++ dir ++ "/" ++ b).data = true
    have h1 : (a ++ dir ++ "/" ++ b).data = a.data ++ (dir ++ "/").data ++ b.data := by
      simp [strData_append, List.append_assoc]
    rw [h1]
    exact hasSub_of_middle _ _ _
  have hany : RulesJs.IGNORED_DIRS.any
      (fun d => strIncludes (a ++ dir ++ "/" ++ b) (d ++ "/")) = true :=
    List.any_eq_true.mpr ⟨dir, h, hsub⟩
  simp [RulesJs.shouldIncludeFile, hany]

/-- Witness for the amended C3 at "src/" ++ "node_modules" ++ "/" ++ "a.ts". -/
theorem c3_dir_reject_js_witness :
    RulesJs.shouldIncludeFile ("src/" ++ "node_modules" ++ "/" ++ "a.ts") = false :=
  c3_dir_reject_js "src/" "node_modules" "a.ts" (by decide)

/-- C6: for a file that passes the extension and size gates and whose utf8
read succeeds, the recorded metric is the number of newline-separated
pieces of the content, which equals one more than the number of newline
characters: the empty content yields 1 and a trailing newline adds one. -/
theorem c6_metric_split_newline (fp b c : String) (coll : List FileInfo)
    (hskip : shouldSkipFile fp = false) (hsize : b.length ≤ MAX_BASE64_BYTES) :
    processOneFile fp (.ok b) (.ok c) coll
        = (coll ++ [⟨fp, (splitNl c).length⟩], [])
      ∧ (splitNl c).length = c.data.count '\n' + 1 := by
  constructor
  · simp [processOneFile, hskip, Nat.not_lt.mpr hsize]
  · unfold splitNl
    rw [List.length_map]
    exact splitChar_length '\n' c.data

/-- Witness for C6: content "x\ny\n" gives metric 3 = two newlines plus one. -/
theorem c6_metric_split_newline_witness :
    processOneFile "a.ts" (.ok "x") (.ok "x\ny\n") []
        = ([⟨"a.ts", (splitNl "x\ny\n").length⟩], [])
      ∧ (splitNl "x\ny\n").length = ("x\ny\n").data.count '\n' + 1 := by
  simpa using c6_metric_split_newline "a.ts" "x" "x\ny\n" [] (by decide) (by decide)

theorem lookupSel_setSel (m : SelMap) (key : String) (v : Bool) (k : String) :
    lookupSel (setSel m key v) k = if k = key then some v else lookupSel m k := by
  induction m with
  | nil =>
    by_cases h : k = key
    · simp [setSel, lookupSel, h]
    · simp [setSel, lookupSel, h, Ne.symm h]
  | cons p rest ih =>
    obtain ⟨a, b⟩ := p
    by_cases h1 : a = key
    · subst h1
      by_cases h2 : k = a
      · subst h2
        simp [setSel, lookupSel]
      · simp [setSel, lookupSel, h2, Ne.symm h2]
    · by_cases h2 : k = a
      · subst h2
        simp [setSel, lookupSel, h1, Ne.symm h1]
      · simp [setSel, lookupSel, h1, h2, Ne.symm h2, ih]

mutual
theorem lookup_setAllFilesRec (val : Bool) (t : TreeNode) (m : SelMap) (k : String) :
    lookupSel (setAllFilesRec val t m) k
      = if k ∈ filePaths t then some val else lookupSel m k := by
  cases t with
  | file n p lcv =>
    simp only [setAllFilesRec, filePaths]
    rw [lookupSel_setSel]
    by_cases h : k = p <;> simp [h]
  | dir n p cs =>
    simp only [setAllFilesRec, filePaths]
    exact lookup_setAllFilesL val cs m k
  termination_by (sizeOf t, 1)
theorem lookup_setAllFilesL (val : Bool) (cs : List TreeNode) (m : SelMap) (k : String) :
    lookupSel (setAllFilesL val cs m) k
      = if k ∈ filePathsL cs then some val else lookupSel m k := by
  cases cs with
  | nil => simp [setAllFilesL, filePathsL]
  | cons c rest =>
    simp only [setAllFilesL, filePathsL]
    rw [lookup_setAllFilesL val rest _ k, lookup_setAllFilesRec val c m k]
    by_cases h1 : k ∈ filePaths c <;> by_cases h2 : k ∈ filePathsL rest <;>
      simp [h1, h2, List.mem_append]
  termination_by (sizeOf cs, 2)
end

/-- C10: the folder toggle changes at most the entries of the descendant
file paths of the toggled directory; every other key keeps its previous
lookup result, and every key present before is still present afterwards. -/
theorem c10_toggle_frame (tree : List TreeNode) (m : SelMap) (fp : String) (val : Bool) :
    (∀ k, k ∉ descendantFilePaths tree fp →
        lookupSel (handleToggleFolder tree m fp val) k = lookupSel m k)
      ∧ ∀ k, (lookupSel m k).isSome = true →
        (lookupSel (handleToggleFolder tree m fp val) k).isSome = true := by
  cases hf : findNode tree fp with
  | none => simp [handleToggleFolder, descendantFilePaths, hf]
  | some n =>
    cases n with
    | file nm p lcv => simp [handleToggleFolder, descendantFilePaths, hf]
    | dir nm p cs =>
      simp only [handleToggleFolder, descendantFilePaths, hf]
      constructor
      · intro k hk
        rw [lookup_setAllFilesL]
        simp [hk]
      · intro k hk
        rw [lookup_setAllFilesL]
        by_cases h : k ∈ filePathsL cs <;> simp [h, hk]

/-- Witness for C10: toggling the folder "d" leaves the unrelated present
key "z" untouched and still present. -/
theorem c10_toggle_frame_witness :
    lookupSel
        (handleToggleFolder [TreeNode.dir "d" "d" [TreeNode.file "f" "d/f" 1]]
          [("z", true)] "d" true) "z"
      = lookupSel [("z", true)] "z" :=
  (c10_toggle_frame [TreeNode.dir "d" "d" [TreeNode.file "f" "d/f" 1]]
    [("z", true)] "d" true).1 "z" (by
      simp [descendantFilePaths, findNode, TreeNode.pathOf, filePaths, filePathsL])

mutual
theorem countSelected_const (m : SelMap) (val : Bool) (t : TreeNode)
    (h : ∀ p ∈ filePaths t, getSel m p = val) :
    countSelected t m = if val then countFiles t else 0 := by
  cases t with
  | file n p lcv =>
    have hp : getSel m p = val := h p (by simp [filePaths])
    cases val <;> simp [countSelected, countFiles, hp]
  | dir n p cs =>
    have := countSelectedL_const m val cs (by simpa [filePaths] using h)
    cases val <;> simpa [countSelected, countFiles] using this
  termination_by (sizeOf t, 1)
theorem countSelectedL_const (m : SelMap) (val : Bool) (cs : List TreeNode)
    (h : ∀ p ∈ filePathsL cs, getSel m p = val) :
    countSelectedL cs m = if val then countFilesL cs else 0 := by
  cases cs with
  | nil => cases val <;> simp [countSelectedL, countFilesL]
  | cons c rest =>
    have h1 := countSelected_const m val c
      (fun p hp => h p (by simp [filePathsL, List.mem_append, hp]))
    have h2 := countSelectedL_const m val rest
      (fun p hp => h p (by simp [filePathsL, List.mem_append, hp]))
    cases val <;> simp [countSelectedL, countFilesL, h1, h2]
  termination_by (sizeOf cs, 2)
end

/-- C7: toggling a directory that contains at least one file to true makes
its derived state all, and toggling it to false makes it none, whatever
the prior selection map. -/
theorem c7_toggle_then_state (tree : List TreeNode) (m : SelMap) (fp : String)
    (n : TreeNode) (hf : findNode tree fp = some n) (hd : n.isDir = true)
    (hpos : 0 < countFiles n) :
    folderState (handleToggleFolder tree m fp true) n = FolderState.all
      ∧ folderState (handleToggleFolder tree m fp false) n = FolderState.none := by
  cases n with
  | file nm p lcv => simp [TreeNode.isDir] at hd
  | dir nm p cs =>
    have hcount : ∀ (val : Bool),
        countSelected (.dir nm p cs) (handleToggleFolder tree m fp val)
          = if val then countFiles (.dir nm p cs) else 0 := by
      intro val
      simp only [handleToggleFolder, hf]
      apply countSelected_const
      intro q hq
      unfold getSel
      rw [lookup_setAllFilesL]
      simp only [filePaths] at hq
      simp [hq]
    constructor
    · unfold folderState isAllSelected
      rw [hcount true]
      simp
    · unfold folderState isAllSelected isNoneSelected
      rw [hcount false]
      have hne : ¬((0 : Nat) == countFiles (.dir nm p cs)) = true := by
        simp
        omega
      simp [hne]

/-- Witness for C7 on a one-file directory: toggling true yields all,
toggling false yields none. -/
theorem c7_toggle_then_state_witness :
    folderState
        (handleToggleFolder [TreeNode.dir "d" "d" [TreeNode.file "f" "d/f" 1]] [] "d" true)
        (TreeNode.dir "d" "d" [TreeNode.file "f" "d/f" 1]) = FolderState.all
      ∧ folderState
        (handleToggleFolder [TreeNode.dir "d" "d" [TreeNode.file "f" "d/f" 1]] [] "d" false)
        (TreeNode.dir "d" "d" [TreeNode.file "f" "d/f" 1]) = FolderState.none :=
  c7_toggle_then_state [TreeNode.dir "d" "d" [TreeNode.file "f" "d/f" 1]] [] "d"
    (TreeNode.dir "d" "d" [TreeNode.file "f" "d/f" 1])
    (by simp [findNode, TreeNode.pathOf]) rfl (by decide)

theorem catStrs_append (a b : List String) :
    catStrs (a ++ b) = catStrs a ++ catStrs b := by
  induction a with
  | nil =>
    apply strEq_of_data
    simp [catStrs, strData_append]
  | cons x rest ih =>
    apply strEq_of_data
    simp [catStrs, strData_append, ih]

mutual
theorem gather_eq (reads : String → ReadResult) (m : SelMap) (t : TreeNode) :
    gatherSelectedContent reads m t
      = (catStrs ((selPaths m t).map (blockOrEmpty reads)),
         (selPaths m t).filterMap (errOf reads)) := by
  cases t with
  | file n p lcv =>
    by_cases h : getSel m p
    · cases hr : reads p with
      | ok c =>
        apply Prod.ext
        · apply strEq_of_data
          simp [gatherSelectedContent, selPaths, h, hr, blockOrEmpty, errOf, catStrs,
            strData_append]
        · simp [gatherSelectedContent, selPaths, h, hr, blockOrEmpty, errOf, catStrs]
      | err e =>
        simp [gatherSelectedContent, selPaths, h, hr, blockOrEmpty, errOf, catStrs]
    · simp [gatherSelectedContent, selPaths, h, catStrs]
  | dir n p cs =>
    simp only [gatherSelectedContent, selPaths]
    exact gatherL_eq reads m cs
  termination_by (sizeOf t, 1)
theorem gatherL_eq (reads : String → ReadResult) (m : SelMap) (cs : List TreeNode) :
    gatherL reads m cs
      = (catStrs ((selPathsL m cs).map (blockOrEmpty reads)),
         (selPathsL m cs).filterMap (errOf reads)) := by
  cases cs with
  | nil => simp [gatherL, selPathsL, catStrs]
  | cons c rest =>
    simp only [gatherL, selPathsL]
    rw [gather_eq reads m c, gatherL_eq reads m rest]
    simp [List.map_append, List.filterMap_append, catStrs_append]
  termination_by (sizeOf cs, 2)
end

/-- C8: when the read of one selected file fails during export, the final
text is still assembled and handed to the write with its timestamp-derived
name, the gathered body is exactly the concatenation of the per-path blocks
in traversal order with the failing path contributing the empty block, and
the failure message is among the surfaced presentation errors. -/
theorem c8_export_read_error (reads : String → ReadResult) (m : SelMap)
    (tree : List TreeNode) (now p e : String)
    (hp : p ∈ selPathsL m tree) (he : reads p = .err e) :
    (handleGenerateText reads m tree now).1 = "code-to-text-" ++ now ++ ".txt"
      ∧ (gatherL reads m tree).1 = catStrs ((selPathsL m tree).map (blockOrEmpty reads))
      ∧ blockOrEmpty reads p = ""
      ∧ readErrMsg p e ∈ (handleGenerateText reads m tree now).2.2 := by
  refine ⟨rfl, ?_, ?_, ?_⟩
  · rw [gatherL_eq]
  · simp [blockOrEmpty, he]
  · have h2 : (handleGenerateText reads m tree now).2.2 = (gatherL reads m tree).2 := rfl
    rw [h2, gatherL_eq]
    exact List.mem_filterMap.mpr ⟨p, hp, by simp [errOf, he]⟩

/-- Witness for C8: a two-file directory where the read of "d/f" fails and
the read of "d/g" succeeds. -/
theorem c8_export_read_error_witness :
    ((handleGenerateText
        (fun q => if q = "d/f" then .err "boom" else .ok "x")
        [("d/f", true), ("d/g", true)]
        [TreeNode.dir "d" "d" [TreeNode.file "f" "d/f" 1, TreeNode.file "g" "d/g" 1]]
        "TS").1 = "code-to-text-" ++ "TS" ++ ".txt")
      ∧ (gatherL (fun q => if q = "d/f" then .err "boom" else .ok "x")
          [("d/f", true), ("d/g", true)]
          [TreeNode.dir "d" "d" [TreeNode.file "f" "d/f" 1, TreeNode.file "g" "d/g" 1]]).1
        = catStrs ((selPathsL [("d/f", true), ("d/g", true)]
            [TreeNode.dir "d" "d" [TreeNode.file "f" "d/f" 1, TreeNode.file "g" "d/g" 1]]).map
              (blockOrEmpty (fun q => if q = "d/f" then .err "boom" else .ok "x")))
      ∧ blockOrEmpty (fun q => if q = "d/f" then .err "boom" else .ok "x") "d/f" = ""
      ∧ readErrMsg "d/f" "boom" ∈ (handleGenerateText
          (fun q => if q = "d/f" then .err "boom" else .ok "x")
          [("d/f", true), ("d/g", true)]
          [TreeNode.dir "d" "d" [TreeNode.file "f" "d/f" 1, TreeNode.file "g" "d/g" 1]]
          "TS").2.2 :=
  c8_export_read_error
    (fun q => if q = "d/f" then .err "boom" else .ok "x")
    [("d/f", true), ("d/g", true)]
    [TreeNode.dir "d" "d" [TreeNode.file "f" "d/f" 1, TreeNode.file "g" "d/g" 1]]
    "TS" "d/f" "boom"
    (by simp [selPathsL, selPaths, getSel, lookupSel])
    (by simp)

theorem anySelectedL_eq_any (m : SelMap) (cs : List TreeNode) :
    anySelectedL m cs = cs.any (visibleB m) := by
  induction cs with
  | nil => simp [anySelectedL]
  | cons c rest ih =>
    cases c <;> simp [anySelectedL, visibleB, ih, folderHasAnySelected]

theorem emit_nil_of_invisible (m : SelMap) (c : TreeNode) (pref : String) (b : Bool)
    (h : visibleB m c = false) : buildSelectedTreeText m c pref b = [] := by
  cases c with
  | file n p lcv =>
    simp only [visibleB] at h
    simp [buildSelectedTreeText, h]
  | dir n p cs =>
    simp only [visibleB] at h
    simp [buildSelectedTreeText, h]

theorem emit_head_of_visible (m : SelMap) (c : TreeNode) (pref : String) (b : Bool)
    (h : visibleB m c = true) :
    ∃ rest, buildSelectedTreeText m c pref b
      = (pref ++ (if b then "└─ " else "├─ ") ++ labelOf c) :: rest := by
  cases c with
  | file n p lcv =>
    simp only [visibleB] at h
    exact ⟨[], by simp [buildSelectedTreeText, h, labelOf]⟩
  | dir n p cs =>
    simp only [visibleB] at h
    simp only [buildSelectedTreeText, h, if_true, labelOf]
    exact ⟨_, rfl⟩

theorem emitKids_invisible (m : SelMap) (ws : List TreeNode) (cpre : String)
    (sc : Nat) (idx : Nat) (hw : ∀ c ∈ ws, visibleB m c = false) :
    emitKids m ws cpre sc idx = [] := by
  induction ws generalizing idx with
  | nil => simp [emitKids]
  | cons c rest ih =>
    simp only [emitKids]
    rw [emit_nil_of_invisible m c _ _ (hw c (by simp)),
      ih (idx + 1) (fun x hx => hw x (List.mem_cons_of_mem c hx))]
    rfl

theorem emitKids_visible (m : SelMap) (cpre : String) (vs ws : List TreeNode) (idx : Nat)
    (hv : ∀ c ∈ vs, visibleB m c = true) (hw : ∀ c ∈ ws, visibleB m c = false)
    (hne : vs ≠ []) :
    emitKids m (vs ++ ws) cpre (idx + vs.length) idx = emitVisible m cpre vs := by
  induction vs generalizing idx with
  | nil => exact absurd rfl hne
  | cons c rest ih =>
    cases rest with
    | nil =>
      simp only [List.cons_append, List.nil_append, emitKids, List.length_cons,
        List.length_nil]
      have hflag : ((idx : Int) == ((idx + (0 + 1) : Nat) : Int) - 1) = true := by
        rw [beq_iff_eq]
        push_cast
        ring
      rw [hflag, emitKids_invisible m ws cpre _ _ hw]
      simp [emitVisible]
    | cons d rest2 =>
      have hih := ih (idx + 1) (fun x hx => hv x (List.mem_cons_of_mem c hx))
        (List.cons_ne_nil d rest2)
      simp only [List.cons_append, emitKids, List.length_cons] at hih
      simp only [List.cons_append, emitKids, List.length_cons]
      have e1 : idx + (rest2.length + 1 + 1) = idx + 1 + (rest2.length + 1) := by omega
      rw [e1]
      have hflag : ((idx : Int) == ((idx + 1 + (rest2.length + 1) : Nat) : Int) - 1)
          = false := by
        rw [beq_eq_false_iff_ne]
        intro hx
        push_cast at hx
        omega
      rw [hflag, hih]
      simp [emitVisible]

/-- C1 (amended): for a directory whose children consist of its visible
children followed only by invisible (deselected) trailing siblings, the
emitted lines are the directory line followed by the visible children
emitted in order, every earlier visible child with the middle glyph and
the last visible child with the terminal glyph; invisible trailing
siblings contribute nothing.  At the root level, and when an invisible
sibling precedes a visible one, the source instead uses the literal index,
so the general claim fails there (see the counterexample). -/
theorem c1_visible_sibling_glyphs (m : SelMap) (nm pth pref : String) (isLast : Bool)
    (vs ws : List TreeNode)
    (hv : ∀ c ∈ vs, visibleB m c = true) (hw : ∀ c ∈ ws, visibleB m c = false)
    (hne : vs ≠ []) :
    buildSelectedTreeText m (.dir nm pth (vs ++ ws)) pref isLast
        = (pref ++ (if isLast then "└─ " else "├─ ") ++ nm)
          :: emitVisible m (pref ++ (if isLast then "   " else "|  ")) vs
      ∧ ∀ c b, visibleB m c = true →
          ∃ rest, buildSelectedTreeText m c (pref ++ (if isLast then "   " else "|  ")) b
            = ((pref ++ (if isLast then "   " else "|  "))
                ++ (if b then "└─ " else "├─ ") ++ labelOf c) :: rest := by
  constructor
  · have hguard : folderHasAnySelected m (.dir nm pth (vs ++ ws)) = true := by
      have hex : ∃ v, v ∈ vs := by
        cases vs with
        | nil => exact absurd rfl hne
        | cons v r => exact ⟨v, by simp⟩
      obtain ⟨v, hvm⟩ := hex
      simp only [folderHasAnySelected, anySelectedL_eq_any]
      exact List.any_eq_true.mpr ⟨v, by simp [hvm], hv v hvm⟩
    have hsub : ((vs ++ ws).filter (fun c => visibleB m c)).length = vs.length := by
      rw [List.filter_append, List.filter_eq_self.mpr (fun a ha => hv a ha),
        List.filter_eq_nil_iff.mpr (fun a ha => by simp [hw a ha])]
      simp
    simp only [buildSelectedTreeText, hguard, if_true, hsub]
    have := emitKids_visible m (pref ++ (if isLast then "   " else "|  ")) vs ws 0 hv hw hne
    rw [Nat.zero_add] at this
    rw [this]
  · intro c b hc
    exact emit_head_of_visible m c _ b hc

/-- Witness for the amended C1: a directory with one selected file followed
by a deselected file emits the directory line and the selected file line
with the terminal glyph. -/
theorem c1_visible_sibling_glyphs_witness :
    buildSelectedTreeText [("d/a", true), ("d/b", false)]
        (.dir "d" "d" ([TreeNode.file "a" "d/a" 1] ++ [TreeNode.file "b" "d/b" 1])) "" true
      = ("" ++ (if true then "└─ " else "├─ ") ++ "d")
        :: emitVisible [("d/a", true), ("d/b", false)]
            ("" ++ (if true then "   " else "|  ")) [TreeNode.file "a" "d/a" 1] :=
  (c1_visible_sibling_glyphs [("d/a", true), ("d/b", false)] "d" "d" "" true
    [TreeNode.file "a" "d/a" 1] [TreeNode.file "b" "d/b" 1]
    (by decide) (by decide) (List.cons_ne_nil _ _)).1

/-- C1 counterexample: at the root level the source compares the literal
index with the literal length, so with a trailing deselected root sibling
the only visible root line keeps the middle glyph "├─ " rather than the
terminal glyph, refuting the claim for root-level sibling sets. -/
theorem c1_root_glyph_counterexample :
    buildToc [("a", true), ("b", false)]
        [TreeNode.file "a" "a" 1, TreeNode.file "b" "b" 1]
      = ["├─ a (1 lines)"]
      ∧ strStartsWith "├─ a (1 lines)" "└─ " = false := by
  constructor
  · simp only [buildToc, emitRoots, buildSelectedTreeText, getSel, lookupSel, labelOf]
    norm_num
    decide
  · decide

theorem lexCmpC_swap (a : List Char) : ∀ b, lexCmpC b a = (lexCmpC a b).swap := by
  induction a with
  | nil => intro b; cases b <;> rfl
  | cons x l ih =>
    intro b
    cases b with
    | nil => rfl
    | cons y r =>
      simp only [lexCmpC]
      by_cases h1 : x.toNat < y.toNat
      · rw [if_neg (by omega), if_pos h1, if_pos h1]
        rfl
      · by_cases h2 : y.toNat < x.toNat
        · rw [if_pos h2, if_neg h1, if_pos h2]
          rfl
        · rw [if_neg h2, if_neg (by omega), if_neg h1, if_neg h2]
          exact ih r

theorem lexCmpC_le_trans (a : List Char) : ∀ b c, lexCmpC a b ≠ .gt →
    lexCmpC b c ≠ .gt → lexCmpC a c ≠ .gt := by
  induction a with
  | nil =>
    intro b c _ _
    cases c <;> simp [lexCmpC]
  | cons x l ih =>
    intro b c h1 h2
    cases b with
    | nil => simp [lexCmpC] at h1
    | cons y r =>
      cases c with
      | nil => simp [lexCmpC] at h2
      | cons z s =>
        simp only [lexCmpC] at h1 h2 ⊢
        by_cases hxy : x.toNat < y.toNat
        · by_cases hyz : y.toNat < z.toNat
          · rw [if_pos (by omega)]
            simp
          · by_cases hzy : z.toNat < y.toNat
            · rw [if_neg hyz, if_pos hzy] at h2
              exact absurd rfl h2
            · rw [if_pos (by omega)]
              simp
        · by_cases hyx : y.toNat < x.toNat
          · rw [if_neg hxy, if_pos hyx] at h1
            exact absurd rfl h1
          · rw [if_neg hxy, if_neg hyx] at h1
            by_cases hyz : y.toNat < z.toNat
            · rw [if_pos (by omega)]
              simp
            · by_cases hzy : z.toNat < y.toNat
              · rw [if_neg hyz, if_pos hzy] at h2
                exact absurd rfl h2
              · rw [if_neg hyz, if_neg hzy] at h2
                rw [if_neg (by omega), if_neg (by omega)]
                exact ih r s h1 h2

theorem localeCmp_nonneg_flip (a b : String) (h : ¬localeCmp a b < 0) :
    localeCmp b a ≤ 0 := by
  have hs := lexCmpC_swap a.data b.data
  rcases hc : lexCmpC a.data b.data with _ | _ | _
  · rw [hc] at hs
    simp [localeCmp, hc] at h
  · rw [hc] at hs
    norm_num [localeCmp, hs, Ordering.swap]
  · rw [hc] at hs
    norm_num [localeCmp, hs, Ordering.swap]

theorem localeCmp_le_trans (a b c : String) (h1 : localeCmp a b ≤ 0)
    (h2 : localeCmp b c ≤ 0) : localeCmp a c ≤ 0 := by
  have ha : lexCmpC a.data b.data ≠ .gt := by
    intro hx
    simp [localeCmp, hx] at h1
  have hb : lexCmpC b.data c.data ≠ .gt := by
    intro hx
    simp [localeCmp, hx] at h2
  have hac := lexCmpC_le_trans a.data b.data c.data ha hb
  rcases hx : lexCmpC a.data c.data with _ | _ | _
  · norm_num [localeCmp, hx]
  · norm_num [localeCmp, hx]
  · exact absurd hx hac

theorem nodeCmp_nonneg_flip (a b : TreeNode) (h : ¬nodeCmp a b < 0) :
    nodeCmp b a ≤ 0 := by
  cases a <;> cases b <;> simp only [nodeCmp] at h ⊢
  · omega
  · norm_num
  · exact absurd (by norm_num) h
  · exact localeCmp_nonneg_flip _ _ h

theorem nodeCmp_le_trans (a b c : TreeNode) (h1 : nodeCmp a b ≤ 0)
    (h2 : nodeCmp b c ≤ 0) : nodeCmp a c ≤ 0 := by
  cases a <;> cases b <;> cases c <;> simp only [nodeCmp] at h1 h2 ⊢ <;>
    first
      | omega
      | exact localeCmp_le_trans _ _ _ h1 h2

theorem mem_insertCmp (cmp : α → α → Int) (x : α) (l : List α) (y : α) :
    y ∈ insertCmp cmp x l ↔ y = x ∨ y ∈ l := by
  induction l with
  | nil => simp [insertCmp]
  | cons z zs ih =>
    by_cases h : cmp x z < 0
    · simp [insertCmp, h]
    · simp [insertCmp, h, ih]
      tauto

theorem pairwise_insertCmp (cmp : α → α → Int)
    (hflip : ∀ a b, ¬cmp a b < 0 → cmp b a ≤ 0)
    (htr : ∀ a b c, cmp a b ≤ 0 → cmp b c ≤ 0 → cmp a c ≤ 0)
    (x : α) (l : List α) (hl : l.Pairwise (fun a b => cmp a b ≤ 0)) :
    (insertCmp cmp x l).Pairwise (fun a b => cmp a b ≤ 0) := by
  induction l with
  | nil => simp [insertCmp]
  | cons z zs ih =>
    rcases hl with _ | ⟨hz, hzs⟩
    by_cases h : cmp x z < 0
    · simp only [insertCmp, if_pos h]
      refine List.Pairwise.cons ?_ (List.Pairwise.cons hz hzs)
      intro y hy
      rcases List.mem_cons.mp hy with hy | hy
      · subst hy
        omega
      · exact htr x z y (by omega) (hz y hy)
    · simp only [insertCmp, if_neg h]
      refine List.Pairwise.cons ?_ (ih hzs)
      intro y hy
      rcases (mem_insertCmp cmp x zs y).mp hy with hy | hy
      · rw [hy]
        exact hflip x z h
      · exact hz y hy

theorem pairwise_sortCmp (cmp : α → α → Int)
    (hflip : ∀ a b, ¬cmp a b < 0 → cmp b a ≤ 0)
    (htr : ∀ a b c, cmp a b ≤ 0 → cmp b c ≤ 0 → cmp a c ≤ 0)
    (l : List α) : (sortCmp cmp l).Pairwise (fun a b => cmp a b ≤ 0) := by
  have aux : ∀ (l acc : List α), acc.Pairwise (fun a b => cmp a b ≤ 0) →
      (l.foldl (fun acc x => insertCmp cmp x acc) acc).Pairwise
        (fun a b => cmp a b ≤ 0) := by
    intro l
    induction l with
    | nil => intro acc h; simpa using h
    | cons x xs ih =>
      intro acc h
      exact ih (insertCmp cmp x acc) (pairwise_insertCmp cmp hflip htr x acc h)
  exact aux l [] (by simp)

theorem insertCmp_perm (cmp : α → α → Int) (x : α) (l : List α) :
    List.Perm (insertCmp cmp x l) (x :: l) := by
  induction l with
  | nil => simp [insertCmp]
  | cons z zs ih =>
    by_cases h : cmp x z < 0
    · simp [insertCmp, h]
    · simp only [insertCmp, if_neg h]
      exact (List.Perm.cons z ih).trans (List.Perm.swap x z zs)

theorem sortCmp_perm (cmp : α → α → Int) (l : List α) :
    List.Perm (sortCmp cmp l) l := by
  have aux : ∀ (l acc : List α),
      List.Perm (l.foldl (fun acc x => insertCmp cmp x acc) acc) (acc ++ l) := by
    intro l
    induction l with
    | nil => intro acc; simp
    | cons x xs ih =>
      intro acc
      refine ((ih (insertCmp cmp x acc)).trans ?_)
      refine (List.Perm.append_right xs (insertCmp_perm cmp x acc)).trans ?_
      exact List.perm_middle.symm.trans (by simp [List.perm_middle])
  simpa using aux l []

theorem childrenSortedL_iff (cs : List TreeNode) :
    childrenSortedL cs ↔ ∀ c ∈ cs, childrenSorted c := by
  induction cs with
  | nil => simp [childrenSortedL]
  | cons c rest ih =>
    simp [childrenSortedL, ih]

mutual
theorem childrenSorted_toTreeNodes (m : EntryMap) (pre : String) :
    childrenSortedL (toTreeNodes m pre) := by
  rw [childrenSortedL_iff]
  intro c hc
  have hraw : c ∈ rawNodes m pre :=
    ((sortCmp_perm nodeCmp (rawNodes m pre)).mem_iff).mp (by simpa [toTreeNodes] using hc)
  exact (childrenSortedL_iff (rawNodes m pre)).mp (childrenSorted_rawNodes m pre) c hraw
  termination_by (sizeOf m, 1)
theorem childrenSorted_rawNodes (m : EntryMap) (pre : String) :
    childrenSortedL (rawNodes m pre) := by
  cases m with
  | nil => simp [rawNodes, childrenSortedL]
  | cons k e rest =>
    cases e with
    | mk d lcv ch =>
      have htail := childrenSorted_rawNodes rest pre
      have hch := childrenSorted_toTreeNodes ch (if pre = "." then k else pre ++ "/" ++ k)
      have hpw : List.Pairwise (fun a b => nodeCmp a b ≤ 0)
          (toTreeNodes ch (if pre = "." then k else pre ++ "/" ++ k)) := by
        simp only [toTreeNodes]
        exact pairwise_sortCmp nodeCmp nodeCmp_nonneg_flip nodeCmp_le_trans _
      cases d with
      | false =>
        simp only [rawNodes, childrenSortedL, childrenSorted, if_neg Bool.false_ne_true]
        exact ⟨trivial, htail⟩
      | true =>
        simp only [rawNodes, childrenSortedL, childrenSorted, if_true]
        exact ⟨⟨hpw, hch⟩, htail⟩
  termination_by (sizeOf m, 0)
end

theorem buildTree_eq (records : List FileInfo) :
    buildTree records = toTreeNodes (buildMap records) "." := by
  unfold buildTree
  simp [toTreeNodes, rawNodes, sortCmp, insertCmp, TreeNode.childrenOrNil]

/-- C5 (amended): in every built tree, within each children list the
directories come before the files, the directories are in ascending name
order, and the files are in descending line-count order; two files with
equal line count keep their insertion order (the source comparator has no
name tie-break, see the counterexample). -/
theorem c5_children_sorted (records : List FileInfo) :
    (buildTree records).Pairwise (fun a b => nodeCmp a b ≤ 0)
      ∧ ∀ t ∈ buildTree records, childrenSorted t := by
  rw [buildTree_eq]
  constructor
  · simp only [toTreeNodes]
    exact pairwise_sortCmp nodeCmp nodeCmp_nonneg_flip nodeCmp_le_trans _
  · intro t ht
    exact (childrenSortedL_iff _).mp (childrenSorted_toTreeNodes (buildMap records) ".") t ht

/-- Witness for the amended C5 on the two-record tree: the built forest is
pairwise ordered by the comparator. -/
theorem c5_children_sorted_witness :
    (buildTree [⟨"b", 1⟩, ⟨"a", 1⟩]).Pairwise (fun a b => nodeCmp a b ≤ 0) :=
  (c5_children_sorted [⟨"b", 1⟩, ⟨"a", 1⟩]).1

/-- C5 counterexample: two root files with equal line count keep their
record order b before a, so the children are not ordered by name among
equal-metric files as the claim requires. -/
theorem c5_name_tiebreak_counterexample :
    pairwiseB specPair (buildTree [⟨"b", 1⟩, ⟨"a", 1⟩]) = false
      ∧ (buildTree [⟨"b", 1⟩, ⟨"a", 1⟩]).map TreeNode.nameOf = ["b", "a"] := by
  constructor
  · simp [buildTree, buildMap, splitSlash, splitChar, insertParts, toTreeNodes,
      rawNodes, sortCmp, insertCmp, nodeCmp, TreeNode.childrenOrNil, pairwiseB,
      specPair, lexCmpC]
    decide
  · simp [buildTree, buildMap, splitSlash, splitChar, insertParts, toTreeNodes,
      rawNodes, sortCmp, insertCmp, nodeCmp, TreeNode.childrenOrNil, TreeNode.nameOf]

theorem joinSegs_single (k : String) : joinSegs [k] = k := rfl

theorem joinStr_append_single (sep : String) (l : List String) (k : String)
    (h : l ≠ []) : joinStr sep (l ++ [k]) = joinStr sep l ++ sep ++ k := by
  induction l with
  | nil => exact absurd rfl h
  | cons x rest ih =>
    cases rest with
    | nil =>
      apply strEq_of_data
      simp [joinStr, strData_append]
    | cons y s =>
      have ihh := ih (List.cons_ne_nil y s)
      simp only [List.cons_append] at ihh ⊢
      simp only [joinStr] at ihh ⊢
      rw [ihh]
      apply strEq_of_data
      simp [strData_append]

theorem joinSegs_append_single (chain : List String) (k : String) (h : chain ≠ []) :
    joinSegs (chain ++ [k]) = joinSegs chain ++ "/" ++ k :=
  joinStr_append_single "/" chain k h

theorem slash_ne_dot (s k : String) : s ++ "/" ++ k ≠ "." := by
  intro h
  have hd := congrArg String.data h
  rw [strData_append, strData_append] at hd
  have h1 : ("/" : String).data = ['/'] := rfl
  have h2 : ("." : String).data = ['.'] := rfl
  rw [h1, h2] at hd
  cases hs : s.data with
  | nil =>
    rw [hs] at hd
    simp only [List.nil_append, List.cons_append] at hd
    have hhd : ('/' : Char) = '.' := by
      have hh := congrArg (fun l => l.headD ' ') hd
      simp at hh
    exact absurd hhd (by decide)
  | cons c cs =>
    rw [hs] at hd
    have hlen := congrArg List.length hd
    simp at hlen

theorem freshFor_nil (ps : List String) : freshFor .nil ps := by
  match ps with
  | [] => simp [freshFor]
  | [p] => simp [freshFor, lookupE]
  | p :: q :: rest => simp [freshFor, lookupE]

theorem lookupE_insertParts_other (lc : Nat) (q : String) (qs : List String)
    (m : EntryMap) (p : String) (hqp : q ≠ p) :
    lookupE (insertParts lc (q :: qs) m) p = lookupE m p := by
  cases m with
  | nil =>
    cases qs with
    | nil => simp [insertParts, lookupE, hqp]
    | cons w ws => simp [insertParts, lookupE, hqp]
  | cons k e rest =>
    have ih := lookupE_insertParts_other lc q qs rest p hqp
    cases e with
    | mk d l ch =>
      by_cases hkq : k = q
      · subst hkq
        cases qs with
        | nil => simp [insertParts, lookupE, hqp]
        | cons w ws => simp [insertParts, lookupE, hqp]
      · by_cases hkp : k = p
        · subst hkp
          cases qs with
          | nil => simp [insertParts, lookupE, hkq]
          | cons w ws => simp [insertParts, lookupE, hkq]
        · cases qs with
          | nil => simp [insertParts, lookupE, hkq, hkp, ih]
          | cons w ws => simp [insertParts, lookupE, hkq, hkp, ih]
termination_by sizeOf m

theorem freshFor_cons_ne (k : String) (e : Entry) (rest : EntryMap) (p : String)
    (l : List String) (hkp : ¬k = p) :
    freshFor (.cons k e rest) (p :: l) ↔ freshFor rest (p :: l) := by
  cases l with
  | nil => simp [freshFor, lookupE, hkp]
  | cons v vs => simp [freshFor, lookupE, hkp]

theorem freshFor_of_lookupE_eq (m m' : EntryMap) (p : String) (l : List String)
    (h : lookupE m' p = lookupE m p) (hf : freshFor m (p :: l)) :
    freshFor m' (p :: l) := by
  cases l with
  | nil =>
    simp only [freshFor] at hf ⊢
    rw [h]
    exact hf
  | cons v vs =>
    simp only [freshFor] at hf ⊢
    rw [h]
    exact hf

theorem freshFor_insertParts (lc : Nat) (ps qs : List String) (m : EntryMap)
    (hf : freshFor m ps) (h1 : listPre ps qs = false) (h2 : listPre qs ps = false) :
    freshFor (insertParts lc qs m) ps := by
  match ps, qs with
  | [], _ => simp [freshFor]
  | _ :: _, [] => simp [listPre] at h2
  | [p], q :: qs' =>
    by_cases hpq : q = p
    · subst hpq
      cases qs' with
      | nil => simp [listPre] at h1
      | cons w ws => simp [listPre] at h1
    · cases qs' with
      | nil =>
        exact freshFor_of_lookupE_eq m _ p []
          (lookupE_insertParts_other lc q [] m p hpq) hf
      | cons w ws =>
        exact freshFor_of_lookupE_eq m _ p []
          (lookupE_insertParts_other lc q (w :: ws) m p hpq) hf
  | p :: v :: vs, [q] =>
    by_cases hpq : q = p
    · subst hpq
      simp [listPre] at h2
    · exact freshFor_of_lookupE_eq m _ p (v :: vs)
        (lookupE_insertParts_other lc q [] m p hpq) hf
  | p :: v :: vs, q :: w :: ws =>
    by_cases hpq : q = p
    · subst hpq
      have h1t : listPre (v :: vs) (w :: ws) = false := by simpa [listPre] using h1
      have h2t : listPre (w :: ws) (v :: vs) = false := by simpa [listPre] using h2
      cases m with
      | nil =>
        simp only [insertParts, freshFor, lookupE, if_pos rfl]
        exact ⟨rfl, freshFor_insertParts lc (v :: vs) (w :: ws) .nil
          (freshFor_nil _) h1t h2t⟩
      | cons k e rest =>
        cases e with
        | mk d l ch =>
          by_cases hkq : k = q
          · subst hkq
            have hf' : d = true ∧ freshFor ch (v :: vs) := by
              simpa [freshFor, lookupE] using hf
            simp only [insertParts, if_pos rfl, freshFor, lookupE]
            exact ⟨hf'.1, freshFor_insertParts lc (v :: vs) (w :: ws) ch
              hf'.2 h1t h2t⟩
          · have hfr : freshFor rest (q :: v :: vs) :=
              (freshFor_cons_ne k _ rest q _ hkq).mp hf
            have hrec := freshFor_insertParts lc (q :: v :: vs) (q :: w :: ws)
              rest hfr h1 h2
            have hstep : insertParts lc (q :: w :: ws) (.cons k (.mk d l ch) rest)
                = .cons k (.mk d l ch) (insertParts lc (q :: w :: ws) rest) := by
              simp [insertParts, hkq]
            rw [hstep]
            exact (freshFor_cons_ne k _ _ q _ hkq).mpr hrec
    · exact freshFor_of_lookupE_eq m _ p (v :: vs)
        (lookupE_insertParts_other lc q (w :: ws) m p hpq) hf
termination_by (ps.length, sizeOf m)

theorem perm_append_mid (A B : List α) (x : α) :
    List.Perm ((A ++ [x]) ++ B) ((A ++ B) ++ [x]) := by
  have h1 : (A ++ [x]) ++ B = A ++ (x :: B) := by simp
  rw [h1]
  exact List.perm_middle.trans (List.perm_append_singleton x (A ++ B)).symm

theorem mapLeaves_insertParts (lc : Nat) (ps : List String) (m : EntryMap)
    (hne : ps ≠ []) (hf : freshFor m ps) :
    List.Perm (mapLeaves (insertParts lc ps m)) (mapLeaves m ++ [(ps, lc)]) := by
  match ps with
  | [] => exact absurd rfl hne
  | [p] =>
    cases m with
    | nil => simp [insertParts, mapLeaves, entryLeaves]
    | cons k e rest =>
      cases e with
      | mk d l ch =>
        have hkp : ¬k = p := by
          intro hx
          subst hx
          simp [freshFor, lookupE] at hf
        have hfr : freshFor rest [p] := by
          simpa [freshFor, lookupE, hkp] using hf
        have ih := mapLeaves_insertParts lc [p] rest (by simp) hfr
        have hstep : mapLeaves (insertParts lc [p] (.cons k (.mk d l ch) rest))
            = entryLeaves k (.mk d l ch) ++ mapLeaves (insertParts lc [p] rest) := by
          simp [insertParts, hkp, mapLeaves]
        have hml : mapLeaves (EntryMap.cons k (.mk d l ch) rest)
            = entryLeaves k (.mk d l ch) ++ mapLeaves rest := by
          simp [mapLeaves]
        rw [hstep, hml, List.append_assoc]
        exact List.Perm.append_left _ ih
  | p :: q :: ps₂ =>
    cases m with
    | nil =>
      have ih := mapLeaves_insertParts lc (q :: ps₂) .nil (by simp) (freshFor_nil _)
      have hsing : mapLeaves (insertParts lc (q :: ps₂) .nil) = [((q :: ps₂), lc)] :=
        List.perm_singleton.mp (by simpa [mapLeaves] using ih)
      simp [insertParts, mapLeaves, entryLeaves, hsing]
    | cons k e rest =>
      cases e with
      | mk d l ch =>
        by_cases hkp : k = p
        · subst hkp
          have hf' : d = true ∧ freshFor ch (q :: ps₂) := by
            simpa [freshFor, lookupE] using hf
          obtain ⟨hd, hfch⟩ := hf'
          subst hd
          have ih := mapLeaves_insertParts lc (q :: ps₂) ch (by simp) hfch
          have hstep : mapLeaves (insertParts lc (k :: q :: ps₂)
              (.cons k (.mk true l ch) rest))
              = (mapLeaves (insertParts lc (q :: ps₂) ch)).map
                  (fun x => ((k :: x.1 : List String), x.2))
                ++ mapLeaves rest := by
            simp [insertParts, mapLeaves, entryLeaves]
          have hmap := List.Perm.map (fun x => ((k :: x.1 : List String), x.2)) ih
          rw [List.map_append] at hmap
          have hml : mapLeaves (EntryMap.cons k (.mk true l ch) rest)
              = (mapLeaves ch).map (fun x => ((k :: x.1 : List String), x.2))
                ++ mapLeaves rest := by
            simp [mapLeaves, entryLeaves]
          rw [hstep, hml]
          refine (List.Perm.append_right (mapLeaves rest) hmap).trans ?_
          simpa using perm_append_mid
            ((mapLeaves ch).map fun x => ((k :: x.1 : List String), x.2))
            (mapLeaves rest) (((k :: q :: ps₂ : List String)), lc)
        · have hfr : freshFor rest (p :: q :: ps₂) :=
            (freshFor_cons_ne k _ rest p _ hkp).mp hf
          have ih := mapLeaves_insertParts lc (p :: q :: ps₂) rest (by simp) hfr
          have hstep : mapLeaves (insertParts lc (p :: q :: ps₂)
              (.cons k (.mk d l ch) rest))
              = entryLeaves k (.mk d l ch)
                ++ mapLeaves (insertParts lc (p :: q :: ps₂) rest) := by
            simp [insertParts, hkp, mapLeaves]
          have hml : mapLeaves (EntryMap.cons k (.mk d l ch) rest)
              = entryLeaves k (.mk d l ch) ++ mapLeaves rest := by
            simp [mapLeaves]
          rw [hstep, hml, List.append_assoc]
          exact List.Perm.append_left _ ih
termination_by (ps.length, sizeOf m)

theorem mapLeaves_foldl (records : List FileInfo) (m : EntryMap)
    (hfresh : ∀ r ∈ records, freshFor m (splitSlash r.path))
    (hinc : records.Pairwise (fun r s =>
      listPre (splitSlash r.path) (splitSlash s.path) = false
        ∧ listPre (splitSlash s.path) (splitSlash r.path) = false)) :
    List.Perm
      (mapLeaves (records.foldl
        (fun acc f => insertParts f.lineCount (splitSlash f.path) acc) m))
      (mapLeaves m ++ records.map (fun r => (splitSlash r.path, r.lineCount))) := by
  induction records generalizing m with
  | nil => simp
  | cons r rs ih =>
    rcases hinc with _ | ⟨hr, hrs⟩
    have hfr : freshFor m (splitSlash r.path) := hfresh r (by simp)
    have hfresh2 : ∀ s ∈ rs,
        freshFor (insertParts r.lineCount (splitSlash r.path) m) (splitSlash s.path) := by
      intro s hs
      exact freshFor_insertParts _ _ _ _ (hfresh s (by simp [hs]))
        (hr s hs).2 (hr s hs).1
    have ins := mapLeaves_insertParts r.lineCount (splitSlash r.path) m
      (splitSlash_ne_nil r.path) hfr
    have ihh := ih (insertParts r.lineCount (splitSlash r.path) m) hfresh2 hrs
    simp only [List.foldl_cons, List.map_cons]
    refine ihh.trans ?_
    refine (List.Perm.append_right _ ins).trans ?_
    rw [List.append_assoc, List.singleton_append]

theorem keysOf_insertParts (lc : Nat) (p : String) (ps : List String) (m : EntryMap)
    (k : String) (hk : k ∈ keysOf (insertParts lc (p :: ps) m)) :
    k ∈ keysOf m ∨ k = p := by
  cases m with
  | nil =>
    cases ps with
    | nil =>
      simp [insertParts, keysOf] at hk
      exact Or.inr hk
    | cons q qs =>
      simp [insertParts, keysOf] at hk
      exact Or.inr hk
  | cons k2 e rest =>
    cases e with
    | mk d l ch =>
      by_cases hk2 : k2 = p
      · subst hk2
        cases ps with
        | nil =>
          simp only [insertParts, if_pos rfl, keysOf] at hk
          exact Or.inl (by simpa [keysOf] using hk)
        | cons q qs =>
          simp only [insertParts, if_pos rfl, keysOf] at hk
          exact Or.inl (by simpa [keysOf] using hk)
      · have hstep : keysOf (insertParts lc (p :: ps) (.cons k2 (.mk d l ch) rest))
            = k2 :: keysOf (insertParts lc (p :: ps) rest) := by
          cases ps with
          | nil => simp [insertParts, hk2, keysOf]
          | cons q qs => simp [insertParts, hk2, keysOf]
        rw [hstep] at hk
        rcases List.mem_cons.mp hk with hx | hx
        · exact Or.inl (by simp [keysOf, hx])
        · rcases keysOf_insertParts lc p ps rest k hx with hx2 | hx2
          · exact Or.inl (by simp [keysOf, hx2])
          · exact Or.inr hx2
termination_by sizeOf m

theorem keysOf_foldl_ne_dot (records : List FileInfo) (m : EntryMap)
    (hm : ∀ k ∈ keysOf m, k ≠ ".")
    (hr : ∀ r ∈ records, (splitSlash r.path).headD "" ≠ ".") :
    ∀ k ∈ keysOf (records.foldl
      (fun acc f => insertParts f.lineCount (splitSlash f.path) acc) m), k ≠ "." := by
  induction records generalizing m with
  | nil => simpa using hm
  | cons r rs ih =>
    simp only [List.foldl_cons]
    apply ih
    · intro k hk
      rcases hsp : splitSlash r.path with _ | ⟨p, ps⟩
      · exact absurd hsp (splitSlash_ne_nil r.path)
      · rw [hsp] at hk
        rcases keysOf_insertParts _ p ps m k hk with h | h
        · exact hm k h
        · subst h
          have hh := hr r (by simp)
          rw [hsp] at hh
          simpa using hh
    · intro s hs
      exact hr s (by simp [hs])

theorem leafListL_append (a b : List TreeNode) :
    leafListL (a ++ b) = leafListL a ++ leafListL b := by
  induction a with
  | nil => simp [leafListL]
  | cons c rest ih => simp [leafListL, ih]

theorem leafListL_perm {l1 l2 : List TreeNode} (h : List.Perm l1 l2) :
    List.Perm (leafListL l1) (leafListL l2) := by
  induction h with
  | nil => exact List.Perm.refl _
  | cons x h ih => simpa [leafListL] using List.Perm.append_left (leafList x) ih
  | swap x y l =>
    simp only [leafListL]
    rw [← List.append_assoc, ← List.append_assoc]
    exact List.Perm.append_right _ List.perm_append_comm
  | trans h1 h2 ih1 ih2 => exact ih1.trans ih2

theorem PreInv_tail (pre : String) (chain : List String) (k : String) (e : Entry)
    (rest : EntryMap) (h : PreInv pre chain (.cons k e rest)) : PreInv pre chain rest := by
  rcases h with ⟨h1, h2, h3⟩ | h
  · exact Or.inl ⟨h1, h2, fun kk hk => h3 kk (by simp [keysOf, hk])⟩
  · exact Or.inr h

theorem PreInv_child (pre : String) (chain : List String) (m : EntryMap) (k : String)
    (h : PreInv pre chain m) (hk : k ∈ keysOf m) (ch : EntryMap) :
    (if pre = "." then k else pre ++ "/" ++ k) = joinSegs (chain ++ [k])
      ∧ PreInv (if pre = "." then k else pre ++ "/" ++ k) (chain ++ [k]) ch := by
  rcases h with ⟨hp, hc, hkeys⟩ | ⟨hc, hp, hd⟩
  · subst hp
    subst hc
    rw [if_pos rfl]
    refine ⟨by simp [joinSegs, joinStr], ?_⟩
    exact Or.inr ⟨by simp, by simp [joinSegs, joinStr], hkeys k hk⟩
  · rw [if_neg hd]
    have hj : joinSegs (chain ++ [k]) = joinSegs chain ++ "/" ++ k :=
      joinSegs_append_single chain k hc
    refine ⟨by rw [hj, ← hp], ?_⟩
    refine Or.inr ⟨by simp, by rw [hj, ← hp], slash_ne_dot pre k⟩

theorem leafListL_rawNodes (m : EntryMap) (pre : String) (chain : List String)
    (h : PreInv pre chain m) :
    List.Perm (leafListL (rawNodes m pre))
      ((mapLeaves m).map (fun q => (joinSegs (chain ++ q.1), q.2))) := by
  cases m with
  | nil => simp [rawNodes, leafListL, mapLeaves]
  | cons k e rest =>
    cases e with
    | mk d lcv ch =>
      have htail := leafListL_rawNodes rest pre chain (PreInv_tail pre chain k _ rest h)
      have hchild := PreInv_child pre chain (.cons k (.mk d lcv ch) rest) k h
        (by simp [keysOf]) ch
      cases d with
      | false =>
        have hstep : rawNodes (.cons k (.mk false lcv ch) rest) pre
            = TreeNode.file k (if pre = "." then k else pre ++ "/" ++ k) lcv
              :: rawNodes rest pre := by
          simp [rawNodes]
        have hmapstep : (mapLeaves (.cons k (.mk false lcv ch) rest)).map
              (fun q => (joinSegs (chain ++ q.1), q.2))
            = (joinSegs (chain ++ [k]), lcv)
                :: (mapLeaves rest).map (fun q => (joinSegs (chain ++ q.1), q.2)) := by
          simp [mapLeaves, entryLeaves]
        rw [hstep, hmapstep]
        have hlf : leafListL
            (TreeNode.file k (if pre = "." then k else pre ++ "/" ++ k) lcv
              :: rawNodes rest pre)
            = ((if pre = "." then k else pre ++ "/" ++ k), lcv) :: leafListL (rawNodes rest pre) := by
          simp [leafListL, leafList]
        rw [hlf, hchild.1]
        exact List.Perm.cons _ htail
      | true =>
        have hrec := leafListL_rawNodes ch (if pre = "." then k else pre ++ "/" ++ k)
          (chain ++ [k]) hchild.2
        have hsort : List.Perm
            (leafListL (toTreeNodes ch (if pre = "." then k else pre ++ "/" ++ k)))
            (leafListL (rawNodes ch (if pre = "." then k else pre ++ "/" ++ k))) := by
          apply leafListL_perm
          simp only [toTreeNodes]
          exact sortCmp_perm _ _
        have hstep : rawNodes (.cons k (.mk true lcv ch) rest) pre
            = TreeNode.dir k (if pre = "." then k else pre ++ "/" ++ k)
                (toTreeNodes ch (if pre = "." then k else pre ++ "/" ++ k))
              :: rawNodes rest pre := by
          simp [rawNodes]
        have hlf : leafListL
            (TreeNode.dir k (if pre = "." then k else pre ++ "/" ++ k)
                (toTreeNodes ch (if pre = "." then k else pre ++ "/" ++ k))
              :: rawNodes rest pre)
            = leafListL (toTreeNodes ch (if pre = "." then k else pre ++ "/" ++ k))
                ++ leafListL (rawNodes rest pre) := by
          simp [leafListL, leafList]
        have hmapstep : (mapLeaves (.cons k (.mk true lcv ch) rest)).map
              (fun q => (joinSegs (chain ++ q.1), q.2))
            = (mapLeaves ch).map
                (fun q => (joinSegs ((chain ++ [k]) ++ q.1), q.2))
              ++ (mapLeaves rest).map (fun q => (joinSegs (chain ++ q.1), q.2)) := by
          simp only [mapLeaves, entryLeaves, List.map_append, List.map_map]
          congr 1
          apply List.map_congr_left
          intro q hq
          simp only [Function.comp]
          rw [show chain ++ k :: q.1 = (chain ++ [k]) ++ q.1 by simp]
        rw [hstep, hlf, hmapstep]
        exact List.Perm.append (hsort.trans hrec) htail
termination_by sizeOf m

theorem pathsOkL_iff (chain : List String) (cs : List TreeNode) :
    pathsOkL chain cs ↔ ∀ c ∈ cs, pathsOk chain c := by
  induction cs with
  | nil => simp [pathsOkL]
  | cons c rest ih => simp [pathsOkL, ih]

mutual
theorem pathsOkL_toTreeNodes (m : EntryMap) (pre : String) (chain : List String)
    (h : PreInv pre chain m) : pathsOkL chain (toTreeNodes m pre) := by
  have hraw := pathsOkL_rawNodes m pre chain h
  rw [pathsOkL_iff] at hraw ⊢
  intro c hc
  exact hraw c ((sortCmp_perm nodeCmp (rawNodes m pre)).mem_iff.mp
    (by simpa [toTreeNodes] using hc))
  termination_by (sizeOf m, 1)
theorem pathsOkL_rawNodes (m : EntryMap) (pre : String) (chain : List String)
    (h : PreInv pre chain m) : pathsOkL chain (rawNodes m pre) := by
  cases m with
  | nil => simp [rawNodes, pathsOkL]
  | cons k e rest =>
    cases e with
    | mk d lcv ch =>
      have htail := pathsOkL_rawNodes rest pre chain (PreInv_tail pre chain k _ rest h)
      have hchild := PreInv_child pre chain (.cons k (.mk d lcv ch) rest) k h
        (by simp [keysOf]) ch
      cases d with
      | false =>
        have hstep : rawNodes (.cons k (.mk false lcv ch) rest) pre
            = TreeNode.file k (if pre = "." then k else pre ++ "/" ++ k) lcv
              :: rawNodes rest pre := by
          simp [rawNodes]
        rw [hstep]
        have hok : pathsOk chain
            (TreeNode.file k (if pre = "." then k else pre ++ "/" ++ k) lcv) := by
          simp only [pathsOk]
          exact hchild.1
        simp only [pathsOkL]
        exact ⟨hok, htail⟩
      | true =>
        have hstep : rawNodes (.cons k (.mk true lcv ch) rest) pre
            = TreeNode.dir k (if pre = "." then k else pre ++ "/" ++ k)
                (toTreeNodes ch (if pre = "." then k else pre ++ "/" ++ k))
              :: rawNodes rest pre := by
          simp [rawNodes]
        rw [hstep]
        have hok : pathsOk chain
            (TreeNode.dir k (if pre = "." then k else pre ++ "/" ++ k)
              (toTreeNodes ch (if pre = "." then k else pre ++ "/" ++ k))) := by
          simp only [pathsOk]
          exact ⟨hchild.1, pathsOkL_toTreeNodes ch _ (chain ++ [k]) hchild.2⟩
        simp only [pathsOkL]
        exact ⟨hok, htail⟩
  termination_by (sizeOf m, 0)
end

/-- C4 counterexample: with the record list [a, a/b] the path "a" is a
proper segment-prefix of "a/b", the terminal marking turns the shared entry
into a file and its subtree is dropped by the conversion, so the built tree
has one leaf although there are two records. -/
theorem c4_prefix_collision_counterexample :
    ([⟨"a", 2⟩, ⟨"a/b", 1⟩] : List FileInfo).length = 2
      ∧ (leafListL (buildTree [⟨"a", 2⟩, ⟨"a/b", 1⟩])).length = 1
      ∧ (1 : Nat) ≠ 2 := by
  refine ⟨rfl, ?_, by decide⟩
  simp [buildTree, buildMap, splitSlash, splitChar, insertParts, toTreeNodes, rawNodes,
    sortCmp, insertCmp, nodeCmp, TreeNode.childrenOrNil, leafListL, leafList]

/-- C4 (amended): for every record list in which no record path is a
segment-prefix of another (ruling out the collision of the counterexample,
and duplicates) and no record path starts with a "." segment (which would
collide with the synthetic "." wrapper prefix), the multiset of leaves of
the built tree, taken with their stored paths and line counts, is exactly
the multiset of records, the leaf count equals the record count, and every
stored path is the ancestor directory names joined with "/" followed by the
node name. -/
theorem c4_buildTree_leaves (records : List FileInfo)
    (hinc : records.Pairwise (fun r s =>
      listPre (splitSlash r.path) (splitSlash s.path) = false
        ∧ listPre (splitSlash s.path) (splitSlash r.path) = false))
    (hdot : ∀ r ∈ records, (splitSlash r.path).headD "" ≠ ".") :
    List.Perm (leafListL (buildTree records))
        (records.map (fun r => (r.path, r.lineCount)))
      ∧ (leafListL (buildTree records)).length = records.length
      ∧ pathsOkL [] (buildTree records) := by
  have hkeys : ∀ k ∈ keysOf (buildMap records), k ≠ "." :=
    keysOf_foldl_ne_dot records .nil (by simp [keysOf]) hdot
  have hPre : PreInv "." [] (buildMap records) := Or.inl ⟨rfl, rfl, hkeys⟩
  have hfold := mapLeaves_foldl records .nil (fun r _ => freshFor_nil _) hinc
  have hfold2 : List.Perm (mapLeaves (buildMap records))
      (records.map (fun r => (splitSlash r.path, r.lineCount))) := by
    simpa [buildMap, mapLeaves] using hfold
  have hperm1 : List.Perm (leafListL (buildTree records))
      ((mapLeaves (buildMap records)).map
        (fun q => (joinSegs (([] : List String) ++ q.1), q.2))) := by
    rw [buildTree_eq]
    refine (leafListL_perm ?_).trans
      (leafListL_rawNodes (buildMap records) "." [] hPre)
    simp only [toTreeNodes]
    exact sortCmp_perm _ _
  have hperm2 := List.Perm.map
    (fun q : List String × Nat => (joinSegs (([] : List String) ++ q.1), q.2)) hfold2
  have hperm3 : List.Perm (leafListL (buildTree records))
      (records.map (fun r => (r.path, r.lineCount))) := by
    refine (hperm1.trans hperm2).trans ?_
    rw [List.map_map]
    have hfun : ((fun q : List String × Nat =>
          (joinSegs (([] : List String) ++ q.1), q.2))
        ∘ (fun r : FileInfo => (splitSlash r.path, r.lineCount)))
        = fun r : FileInfo => (r.path, r.lineCount) := by
      funext r
      simp [joinSegs_splitSlash]
    rw [hfun]
  refine ⟨hperm3, ?_, ?_⟩
  · rw [hperm3.length_eq, List.length_map]
  · rw [buildTree_eq]
    exact pathsOkL_toTreeNodes (buildMap records) "." [] hPre

/-- Witness for the amended C4 on the prefix-free record list [a/x, b]. -/
theorem c4_buildTree_leaves_witness :
    List.Perm (leafListL (buildTree [⟨"a/x", 2⟩, ⟨"b", 1⟩]))
        (([⟨"a/x", 2⟩, ⟨"b", 1⟩] : List FileInfo).map
          (fun r => (r.path, r.lineCount)))
      ∧ (leafListL (buildTree [⟨"a/x", 2⟩, ⟨"b", 1⟩])).length
          = ([⟨"a/x", 2⟩, ⟨"b", 1⟩] : List FileInfo).length
      ∧ pathsOkL [] (buildTree [⟨"a/x", 2⟩, ⟨"b", 1⟩]) :=
  c4_buildTree_leaves [⟨"a/x", 2⟩, ⟨"b", 1⟩] (by decide) (by decide)

/-- C2 counterexample: a directory node with zero descendant files has
`selectedCount === fileCount` (both zero), so the source computes the
"all" checkbox state for it, not the "none" state the claim requires. -/
theorem c2_empty_folder_counterexample :
    folderState [] (TreeNode.dir "d" "d" []) = FolderState.all
      ∧ countFiles (TreeNode.dir "d" "d" []) = 0
      ∧ FolderState.all ≠ FolderState.none := by
  refine ⟨rfl, rfl, by decide⟩

/-- C2 (amended): for every directory node with at least one descendant
file (as every directory produced by the tree builder has), the derived
state is all exactly when the selected count equals the file count, none
exactly when it is zero, and partial (indeterminate) otherwise. -/
theorem c2_folder_state_consistent (m : SelMap) (n : TreeNode)
    (_hdir : n.isDir = true) (hpos : 0 < countFiles n) :
    (folderState m n = FolderState.all ↔ countSelected n m = countFiles n)
      ∧ (folderState m n = FolderState.none ↔ countSelected n m = 0)
      ∧ (folderState m n = FolderState.mixed ↔
          (countSelected n m ≠ countFiles n ∧ countSelected n m ≠ 0)) := by
  clear _hdir
  unfold folderState isAllSelected isNoneSelected
  by_cases h1 : countSelected n m = countFiles n
  · have h0 : countSelected n m ≠ 0 := by omega
    simp [h1, h0]
    omega
  · by_cases h2 : countSelected n m = 0
    · have h0 : ¬(0 = countFiles n) := by omega
      simp [h1, h2, h0]
    · simp [h1, h2]

/-- Witness for the amended C2 on a one-file directory with an empty map:
the state is none, matching a selected count of zero. -/
theorem c2_folder_state_consistent_witness :
    (folderState [] (TreeNode.dir "d" "d" [TreeNode.file "f" "d/f" 1]) = FolderState.all
        ↔ countSelected (TreeNode.dir "d" "d" [TreeNode.file "f" "d/f" 1]) []
            = countFiles (TreeNode.dir "d" "d" [TreeNode.file "f" "d/f" 1]))
      ∧ (folderState [] (TreeNode.dir "d" "d" [TreeNode.file "f" "d/f" 1]) = FolderState.none
        ↔ countSelected (TreeNode.dir "d" "d" [TreeNode.file "f" "d/f" 1]) [] = 0)
      ∧ (folderState [] (TreeNode.dir "d" "d" [TreeNode.file "f" "d/f" 1]) = FolderState.mixed
        ↔ (countSelected (TreeNode.dir "d" "d" [TreeNode.file "f" "d/f" 1]) []
              ≠ countFiles (TreeNode.dir "d" "d" [TreeNode.file "f" "d/f" 1])
            ∧ countSelected (TreeNode.dir "d" "d" [TreeNode.file "f" "d/f" 1]) [] ≠ 0)) :=
  c2_folder_state_consistent [] (TreeNode.dir "d" "d" [TreeNode.file "f" "d/f" 1]) rfl
    (by decide)

end CodeToTxt
